import Mathlib

/-!
Verification of the decentralized-file-sharing-system DHT node
(Kademlia routing table, iterative lookup, store/find-value,
join handshake, and the Proof-of-Space plot/search/verify code).

The Go sources are shallowly embedded: byte strings (`[]byte`,
`string`) become `List Nat` of byte values, the fixed 32-byte
arrays (`[32]byte` peer ids and SHA-256 digests) become the
subtype `Bytes32`, maps become association lists, and the
stateful handlers become pure functions returning the updated
state.  SHA-256 itself is kept as a function parameter `H`:
every property proved here is parametric in the hash function,
which is faithful because the claims under study are relational
(they never depend on particular digest values).
-/

namespace DFS

set_option maxRecDepth 100000

/-- A 32-byte value: Go `[32]byte` (peer ids, node ids, SHA-256 digests). -/
abbrev Bytes32 := { l : List Nat // l.length = 32 }

instance : Inhabited Bytes32 := ⟨⟨List.replicate 32 0, by simp⟩⟩

/-- Model of `bits.LeadingZeros8` from Go `math/bits`, for byte values. -/
def leadingZeros8 (x : Nat) : Nat :=
  if 128 ≤ x then 0
  else if 64 ≤ x then 1
  else if 32 ≤ x then 2
  else if 16 ≤ x then 3
  else if 8 ≤ x then 4
  else if 4 ≤ x then 5
  else if 2 ≤ x then 6
  else if 1 ≤ x then 7
  else 8

/-- Model of `NodeID.PrefixLen` (node_id.go): count of leading equal bits, scanning
bytes and using `LeadingZeros8` on the first differing xor byte. -/
def prefixLenList : List Nat → List Nat → Nat
  | a :: as, b :: bs =>
    let x := a ^^^ b
    if x ≠ 0 then leadingZeros8 x else 8 + prefixLenList as bs
  | _, _ => 0

/-- Model of `NodeID.Xor` (node_id.go), bytewise. -/
def xorBytes (a b : Bytes32) : Bytes32 :=
  ⟨List.zipWith (· ^^^ ·) a.val b.val, by simp [a.2, b.2]⟩

/-- The `PrefixLen` operation on 32-byte ids. -/
def PrefixLen (a b : Bytes32) : Nat := prefixLenList a.val b.val

/-- Model of `NodeID.Less` (node_id.go): unsigned lexicographic comparison, first
differing byte decides. -/
def lessList : List Nat → List Nat → Bool
  | a :: as, b :: bs => if a ≠ b then decide (a < b) else lessList as bs
  | _, _ => false

/-- The `Less` comparison on 32-byte ids. -/
def lessB (a b : Bytes32) : Bool := lessList a.val b.val

theorem lessList_asymm : ∀ {a b : List Nat},
    lessList a b = true → lessList b a = false := by
  intro a
  induction a with
  | nil => intro b h; cases b <;> simp [lessList] at h
  | cons x xs ih =>
    intro b h
    cases b with
    | nil => simp [lessList] at h
    | cons y ys =>
      simp only [lessList] at h ⊢
      by_cases hxy : x = y
      · subst hxy
        simp at h ⊢
        exact ih h
      · simp [hxy] at h
        have : y ≠ x := fun hyx => hxy hyx.symm
        simp [this]
        omega

theorem lessList_trans : ∀ {a b c : List Nat},
    lessList a b = true → lessList b c = true → lessList a c = true := by
  intro a
  induction a with
  | nil => intro b c h; cases b <;> simp [lessList] at h
  | cons x xs ih =>
    intro b c h₁ h₂
    cases b with
    | nil => simp [lessList] at h₁
    | cons y ys =>
      cases c with
      | nil => simp [lessList] at h₂
      | cons z zs =>
        simp only [lessList] at h₁ h₂ ⊢
        by_cases hxy : x = y
        · subst hxy
          simp at h₁
          by_cases hyz : x = z
          · subst hyz
            simp at h₂ ⊢
            exact ih h₁ h₂
          · simp [hyz] at h₂ ⊢
            exact h₂
        · simp [hxy] at h₁
          by_cases hyz : y = z
          · subst hyz
            simp [hxy]
            exact h₁
          · simp [hyz] at h₂
            have hxz : x ≠ z := by omega
            simp [hxz]
            omega

theorem lessList_conn : ∀ {a b : List Nat}, a.length = b.length →
    lessList a b = false → lessList b a = false → a = b := by
  intro a
  induction a with
  | nil => intro b hl _ _; cases b with
    | nil => rfl
    | cons y ys => simp at hl
  | cons x xs ih =>
    intro b hl h₁ h₂
    cases b with
    | nil => simp at hl
    | cons y ys =>
      simp only [lessList] at h₁ h₂
      by_cases hxy : x = y
      · subst hxy
        simp at h₁ h₂ hl
        rw [ih hl h₁ h₂]
      · exfalso
        have : y ≠ x := fun hyx => hxy hyx.symm
        simp [hxy] at h₁
        simp [this] at h₂
        omega

/-! ### Contacts, k-buckets and the routing table
(`src/dht/types.go`, the `Bucket`/`RoutingTable` of `routing_table.go`
used by the 256-bit node, and `kbucket.go`). `LastSeen` timestamps are
wall-clock values that never influence control flow, so they are
omitted from the embedding. -/

/-- Model of `constants.K` (constants.go). -/
def K : Nat := 3

/-- Model of `dht.Contact` (node.go). IP strings are byte lists. -/
structure Contact where
  id : Bytes32
  ip : List Nat
  port : Nat
deriving DecidableEq, Repr

/-- Model of `Bucket.Update` (and the identical `KBucket.Update`, kbucket.go):
move an existing contact with the same id to the tail, else append
while below `K`, else drop the new contact. -/
def bucketUpdate (contacts : List Contact) (c : Contact) : List Contact :=
  if contacts.any (fun e => e.id = c.id) then
    contacts.eraseP (fun e => decide (e.id = c.id)) ++ [c]
  else if contacts.length < K then
    contacts ++ [c]
  else
    contacts

/-- Model of `dht.RoutingTable` (routing_table.go): 256 buckets owned by a
self contact. -/
structure RoutingTable where
  self : Contact
  buckets : Fin 256 → List Contact

/-- Model of `RoutingTable.GetBucketIndex` (routing_table.go): the prefix length
of self and the target, clamped to 255. -/
def GetBucketIndexN (rt : RoutingTable) (targetID : Bytes32) : Nat :=
  let index := PrefixLen rt.self.id targetID
  if 256 ≤ index then 255 else index

theorem GetBucketIndexN_lt (rt : RoutingTable) (targetID : Bytes32) :
    GetBucketIndexN rt targetID < 256 := by
  simp only [GetBucketIndexN]
  split <;> omega

/-- The bucket index packaged as a valid array index. -/
def GetBucketIndex (rt : RoutingTable) (targetID : Bytes32) : Fin 256 :=
  ⟨GetBucketIndexN rt targetID, GetBucketIndexN_lt rt targetID⟩

/-- Model of `RoutingTable.Update` (routing_table.go): dispatch the contact to
the bucket at its clamped prefix length.  Note: unlike the older
`AddContact`, this `Update` has no `c.ID == self.ID` guard. -/
def rtUpdate (rt : RoutingTable) (c : Contact) : RoutingTable :=
  { rt with
    buckets := Function.update rt.buckets (GetBucketIndex rt c.id)
      (bucketUpdate (rt.buckets (GetBucketIndex rt c.id)) c) }

/-- The comparison used by `GetClosestNodes`: contact `a` precedes `b`
when `xor(b.id,t) < xor(a.id,t)` is false, i.e. ascending XOR distance
to the target. -/
def distLe (t : Bytes32) (a b : Contact) : Prop :=
  lessB (xorBytes b.id t) (xorBytes a.id t) = false

instance (t : Bytes32) : DecidableRel (distLe t) := fun a b =>
  instDecidableEqBool (lessB (xorBytes b.id t) (xorBytes a.id t)) false

/-- The `sort.Slice` call of `GetClosestNodes`, modelled as a
comparison sort over the same ordering. -/
def sortByDistance (t : Bytes32) (l : List Contact) : List Contact :=
  List.insertionSort (distLe t) l

/-- The bucket-expansion loop of `GetClosestNodes` (routing_table.go):
visit bucket `bIdx`, then `bIdx-1, bIdx+1, bIdx-2, ...` while fewer
than `count` contacts are pooled and an in-range bucket remains.
Since `bIdx ≤ 255` the Go loop runs at most 255 iterations, so fuel
256 is exact. -/
def collectLoop (rt : RoutingTable) (bIdx : Fin 256) (count : Nat) :
    Nat → Nat → List Contact → List Contact
  | 0, _, nodes => nodes
  | fuel + 1, i, nodes =>
    if nodes.length < count ∧ (i ≤ bIdx.val ∨ bIdx.val + i < 256) then
      let nodes₁ :=
        if i ≤ bIdx.val then
          nodes ++ rt.buckets ⟨bIdx.val - i, Nat.lt_of_le_of_lt (Nat.sub_le _ _) bIdx.isLt⟩
        else nodes
      let nodes₂ :=
        if h : bIdx.val + i < 256 then nodes₁ ++ rt.buckets ⟨bIdx.val + i, h⟩
        else nodes₁
      collectLoop rt bIdx count fuel (i + 1) nodes₂
    else nodes

/-- Model of `RoutingTable.GetClosestNodes` (routing_table.go). -/
def GetClosestNodes (rt : RoutingTable) (targetID : Bytes32) (count : Nat) :
    List Contact :=
  let bIdx := GetBucketIndex rt targetID
  let nodes := collectLoop rt bIdx count 256 1 (rt.buckets bIdx)
  let sorted := sortByDistance targetID nodes
  if count < sorted.length then sorted.take count else sorted

/-- Model of `Node.HandleFindNode` (node.go): passive-update the sender, fetch
the 20 closest contacts, filter out the sender. Returns the reply list
and the updated routing table. -/
def HandleFindNode (rt : RoutingTable) (sender : Contact) (targetID : Bytes32) :
    List Contact × RoutingTable :=
  let rt' := rtUpdate rt sender
  let allNodes := GetClosestNodes rt' targetID 20
  (allNodes.filter (fun node => decide (node.id ≠ sender.id)), rt')

/-- The routing-table shape preserved by `Update`: every contact of
bucket `i` is dispatched there by its clamped prefix length (hence
lives in exactly one bucket), buckets hold at most `K` contacts, and
ids within a bucket are unique. -/
def rtInvariant (rt : RoutingTable) : Prop :=
  ∀ i : Fin 256,
    (∀ c ∈ rt.buckets i, GetBucketIndex rt c.id = i) ∧
    (rt.buckets i).length ≤ K ∧
    (rt.buckets i).Pairwise (fun a b => a.id ≠ b.id)

instance (rt : RoutingTable) : Decidable (rtInvariant rt) := by
  unfold rtInvariant
  infer_instance

theorem rtUpdate_self (rt : RoutingTable) (c : Contact) :
    (rtUpdate rt c).self = rt.self := rfl

theorem GetBucketIndex_rtUpdate (rt : RoutingTable) (c : Contact) (x : Bytes32) :
    GetBucketIndex (rtUpdate rt c) x = GetBucketIndex rt x := rfl

theorem mem_bucketUpdate {l : List Contact} {c x : Contact}
    (hx : x ∈ bucketUpdate l c) : x ∈ l ∨ x = c := by
  unfold bucketUpdate at hx
  split at hx
  · rcases List.mem_append.1 hx with h | h
    · exact Or.inl (List.eraseP_subset _ h)
    · exact Or.inr (List.mem_singleton.1 h)
  · split at hx
    · rcases List.mem_append.1 hx with h | h
      · exact Or.inl h
      · exact Or.inr (List.mem_singleton.1 h)
    · exact Or.inl hx

theorem bucketUpdate_length {l : List Contact} {c : Contact}
    (hK : l.length ≤ K) : (bucketUpdate l c).length ≤ K := by
  unfold bucketUpdate
  split
  · next hany =>
    rcases List.any_eq_true.1 hany with ⟨e, he, hpe⟩
    rw [List.length_append, List.length_eraseP_of_mem he (by simpa using hpe)]
    have : l.length ≥ 1 := List.length_pos.2 (List.ne_nil_of_mem he)
    simp
    omega
  · split
    · next h => simpa using h
    · exact hK

theorem bucketUpdate_pairwise {l : List Contact} {c : Contact}
    (hp : l.Pairwise (fun a b => a.id ≠ b.id)) :
    (bucketUpdate l c).Pairwise (fun a b => a.id ≠ b.id) := by
  unfold bucketUpdate
  split
  · next hany =>
    rcases List.any_eq_true.1 hany with ⟨e, he, hpe⟩
    rcases @List.exists_of_eraseP Contact (fun x => decide (x.id = c.id)) l e he hpe with
      ⟨w, l₁, l₂, hnot, hw, hl, herase⟩
    have hwid : w.id = c.id := of_decide_eq_true hw
    rw [herase]
    rw [hl] at hp
    have hp₁₂ : (l₁ ++ l₂).Pairwise (fun a b => a.id ≠ b.id) := by
      refine hp.sublist ?_
      exact List.Sublist.append_left (List.sublist_cons_self w l₂) l₁
    refine List.pairwise_append.2 ⟨hp₁₂, List.pairwise_singleton _ _, ?_⟩
    intro x hx y hy
    rw [List.mem_singleton.1 hy]
    rcases List.mem_append.1 hx with hx₁ | hx₂
    · have := hnot x hx₁
      simp at this
      rw [← hwid]
      have hx' : x ≠ w := by
        intro hxw
        exact this (by rw [hxw, hwid])
      rw [hwid]
      exact this
    · have hpl : (w :: l₂).Pairwise (fun a b => a.id ≠ b.id) :=
        (List.pairwise_append.1 hp).2.1
      have := (List.pairwise_cons.1 hpl).1 x hx₂
      rw [← hwid]
      exact fun hc => this hc.symm
  · split
    · refine List.pairwise_append.2 ⟨hp, List.pairwise_singleton _ _, ?_⟩
      intro x hx y hy
      rw [List.mem_singleton.1 hy]
      next hany _ =>
      intro hxc
      exact absurd (List.any_eq_true.2 ⟨x, hx, by simpa using hxc⟩) hany
    · exact hp

/-- Claim C6 (amended): every `RoutingTable.Update` preserves the
routing-table invariant: each contact is dispatched to the single
bucket indexed by `prefix_len(self, c)` clamped to 255, buckets keep
at most `K` contacts, and ids within a bucket stay unique.  (The
self-exclusion part of the original claim is refuted separately:
`Update` has no `c.id == self.id` guard.) -/
theorem rtUpdate_preserves_invariant (rt : RoutingTable) (c : Contact)
    (h : rtInvariant rt) : rtInvariant (rtUpdate rt c) := by
  intro i
  obtain ⟨hidx, hlen, hpw⟩ := h i
  have hself : ∀ x : Bytes32, GetBucketIndex (rtUpdate rt c) x = GetBucketIndex rt x :=
    fun x => rfl
  by_cases hi : i = GetBucketIndex rt c.id
  · subst hi
    have hb : (rtUpdate rt c).buckets (GetBucketIndex rt c.id) =
        bucketUpdate (rt.buckets (GetBucketIndex rt c.id)) c := by
      simp [rtUpdate, Function.update]
    refine ⟨?_, ?_, ?_⟩
    · intro x hx
      rw [hb] at hx
      rw [hself]
      rcases mem_bucketUpdate hx with hmem | heq
      · exact hidx x hmem
      · rw [heq]
    · rw [hb]
      exact bucketUpdate_length hlen
    · rw [hb]
      exact bucketUpdate_pairwise hpw
  · have hb : (rtUpdate rt c).buckets i = rt.buckets i :=
      Function.update_noteq hi _ _
    rw [hb]
    exact ⟨fun x hx => (hself x.id).trans (hidx x hx), hlen, hpw⟩

/-- The all-zero 32-byte id. -/
def zeroId : Bytes32 := ⟨List.replicate 32 0, by simp⟩

/-- A 32-byte id ending in 1. -/
def oneId : Bytes32 := ⟨List.replicate 31 0 ++ [1], by simp⟩

/-- The node's own contact on a fresh table. -/
def selfContact : Contact := ⟨zeroId, [], 9000⟩

/-- Some other peer's contact. -/
def otherContact : Contact := ⟨oneId, [], 9001⟩

/-- A freshly initialised routing table for `selfContact`. -/
def freshRT : RoutingTable := ⟨selfContact, fun _ => []⟩

/-- Claim C6 counterexample: `RoutingTable.Update` does NOT forbid
`c.id == self.id` — updating a fresh table with the node's own contact
places the self contact in bucket 255 (the clamp of prefix length
256), so "self never appears in any bucket" fails on the code. -/
theorem rtUpdate_inserts_self :
    (rtUpdate freshRT selfContact).buckets ⟨255, by omega⟩ = [selfContact] ∧
    selfContact.id = freshRT.self.id := by
  constructor
  · decide
  · rfl

/-- Witness for C6: the preservation theorem applied to a concrete
table and contact. -/
theorem rtUpdate_preserves_invariant_witness :
    rtInvariant (rtUpdate freshRT otherContact) :=
  rtUpdate_preserves_invariant freshRT otherContact (by decide)

theorem distLe_total (t : Bytes32) (a b : Contact) : distLe t a b ∨ distLe t b a := by
  unfold distLe
  by_cases h : lessB (xorBytes b.id t) (xorBytes a.id t) = false
  · exact Or.inl h
  · have h' : lessB (xorBytes b.id t) (xorBytes a.id t) = true := by
      revert h
      cases lessB (xorBytes b.id t) (xorBytes a.id t) <;> simp
    exact Or.inr (lessList_asymm h')

theorem distLe_trans (t : Bytes32) {a b c : Contact} :
    distLe t a b → distLe t b c → distLe t a c := by
  unfold distLe lessB
  intro h₁ h₂
  by_contra hcd
  have hcd' : lessList (xorBytes c.id t).val (xorBytes a.id t).val = true := by
    revert hcd
    cases lessList (xorBytes c.id t).val (xorBytes a.id t).val <;> simp
  by_cases hab : lessList (xorBytes a.id t).val (xorBytes b.id t).val = true
  · have := lessList_trans hcd' hab
    rw [this] at h₂
    cases h₂
  · have hab' : lessList (xorBytes a.id t).val (xorBytes b.id t).val = false := by
      revert hab
      cases lessList (xorBytes a.id t).val (xorBytes b.id t).val <;> simp
    have hlen : (xorBytes b.id t).val.length = (xorBytes a.id t).val.length := by
      rw [(xorBytes b.id t).2, (xorBytes a.id t).2]
    have heq := lessList_conn hlen h₁ hab'
    rw [← heq] at hcd'
    rw [hcd'] at h₂
    cases h₂

theorem sortByDistance_sorted (t : Bytes32) (l : List Contact) :
    List.Sorted (distLe t) (sortByDistance t l) := by
  haveI : IsTotal Contact (distLe t) := ⟨distLe_total t⟩
  haveI : IsTrans Contact (distLe t) := ⟨fun _ _ _ => distLe_trans t⟩
  exact List.sorted_insertionSort _ l

theorem invariant_bucket_idx {rt : RoutingTable} (h : rtInvariant rt)
    {j : Fin 256} {c : Contact} (hc : c ∈ rt.buckets j) :
    GetBucketIndexN rt c.id = j.val :=
  congrArg Fin.val ((h j).1 c hc)

/-- Pairwise-distinct ids is kept by the bucket-expansion loop: buckets
visited at step `i` lie at distance exactly `i` from the start bucket,
while everything pooled so far lies strictly closer, and a given id
always maps to a single bucket index. -/
theorem collectLoop_pairwise {rt : RoutingTable} (h : rtInvariant rt)
    (bIdx : Fin 256) (count : Nat) :
    ∀ fuel i nodes, 1 ≤ i →
      nodes.Pairwise (fun a b => a.id ≠ b.id) →
      (∀ c ∈ nodes, Nat.dist (GetBucketIndexN rt c.id) bIdx.val < i) →
      (collectLoop rt bIdx count fuel i nodes).Pairwise (fun a b => a.id ≠ b.id) := by
  intro fuel
  induction fuel with
  | zero => intro i nodes _ hp _; exact hp
  | succ fuel ih =>
    intro i nodes hi hp hdist
    rw [collectLoop]
    split
    · next hcond =>
      set L : List Contact :=
        if i ≤ bIdx.val then
          rt.buckets ⟨bIdx.val - i, Nat.lt_of_le_of_lt (Nat.sub_le _ _) bIdx.isLt⟩
        else [] with hL
      have hLmem : ∀ c ∈ L, GetBucketIndexN rt c.id = bIdx.val - i ∧ i ≤ bIdx.val := by
        intro c hc
        rw [hL] at hc
        split at hc
        · next hle => exact ⟨invariant_bucket_idx h hc, hle⟩
        · cases hc
      have hLpw : L.Pairwise (fun a b => a.id ≠ b.id) := by
        rw [hL]
        split
        · exact (h _).2.2
        · exact List.Pairwise.nil
      have hnodes₁ :
          (if i ≤ bIdx.val then
            nodes ++ rt.buckets ⟨bIdx.val - i, Nat.lt_of_le_of_lt (Nat.sub_le _ _) bIdx.isLt⟩
           else nodes) = nodes ++ L := by
        rw [hL]
        split <;> simp
      rw [hnodes₁]
      have hp₁ : (nodes ++ L).Pairwise (fun a b => a.id ≠ b.id) := by
        refine List.pairwise_append.2 ⟨hp, hLpw, ?_⟩
        intro x hx y hy hxy
        have h₁ := hdist x hx
        obtain ⟨h₂, hle⟩ := hLmem y hy
        have : GetBucketIndexN rt x.id = GetBucketIndexN rt y.id := by rw [hxy]
        rw [this, h₂] at h₁
        simp only [Nat.dist] at h₁
        omega
      have hdist₁ : ∀ c ∈ nodes ++ L,
          Nat.dist (GetBucketIndexN rt c.id) bIdx.val ≤ i := by
        intro c hc
        rcases List.mem_append.1 hc with hc | hc
        · exact Nat.le_of_lt (hdist c hc)
        · obtain ⟨h₂, hle⟩ := hLmem c hc
          rw [h₂]
          simp only [Nat.dist]
          omega
      split
      · next hR =>
        have hRmem : ∀ c ∈ rt.buckets ⟨bIdx.val + i, hR⟩,
            GetBucketIndexN rt c.id = bIdx.val + i := fun c hc => invariant_bucket_idx h hc
        refine ih (i + 1) _ (by omega) ?_ ?_
        · refine List.pairwise_append.2 ⟨hp₁, (h _).2.2, ?_⟩
          intro x hx y hy hxy
          have h₁ := hdist₁ x hx
          have h₂ := hRmem y hy
          have hxyidx : GetBucketIndexN rt x.id = GetBucketIndexN rt y.id := by rw [hxy]
          rw [hxyidx, h₂] at h₁
          simp only [Nat.dist] at h₁
          rcases List.mem_append.1 hx with hx' | hx'
          · have := hdist x hx'
            rw [hxyidx, h₂] at this
            simp only [Nat.dist] at this
            omega
          · obtain ⟨h₃, hle⟩ := hLmem x hx'
            rw [hxyidx, h₂] at h₃
            omega
        · intro c hc
          rcases List.mem_append.1 hc with hc | hc
          · exact Nat.lt_succ_of_le (hdist₁ c hc)
          · rw [hRmem c hc]
            simp only [Nat.dist]
            omega
      · refine ih (i + 1) _ (by omega) hp₁ ?_
        intro c hc
        exact Nat.lt_succ_of_le (hdist₁ c hc)
    · exact hp

/-- Claim C7: with the routing-table invariant, `GetClosestNodes`
returns at most `count` contacts, sorted ascending by XOR distance to
the target, with pairwise-distinct ids; the pool is gathered by the
outward bucket expansion of `collectLoop`. -/
theorem getClosestNodes_spec (rt : RoutingTable) (t : Bytes32) (count : Nat)
    (h : rtInvariant rt) :
    (GetClosestNodes rt t count).length ≤ count ∧
    List.Sorted (distLe t) (GetClosestNodes rt t count) ∧
    (GetClosestNodes rt t count).Pairwise (fun a b => a.id ≠ b.id) := by
  have hsym : ∀ {x y : Contact}, x.id ≠ y.id → y.id ≠ x.id :=
    fun hab he => hab he.symm
  have hpool : (collectLoop rt (GetBucketIndex rt t) count 256 1
      (rt.buckets (GetBucketIndex rt t))).Pairwise (fun a b => a.id ≠ b.id) := by
    refine collectLoop_pairwise h _ count 256 1 _ (by omega) ((h _).2.2) ?_
    intro c hc
    rw [invariant_bucket_idx h hc]
    simp only [Nat.dist]
    omega
  have hsorted := sortByDistance_sorted t (collectLoop rt (GetBucketIndex rt t) count 256 1
      (rt.buckets (GetBucketIndex rt t)))
  have hperm := List.perm_insertionSort (distLe t) (collectLoop rt (GetBucketIndex rt t)
      count 256 1 (rt.buckets (GetBucketIndex rt t)))
  have hpw : (sortByDistance t (collectLoop rt (GetBucketIndex rt t) count 256 1
      (rt.buckets (GetBucketIndex rt t)))).Pairwise (fun a b => a.id ≠ b.id) :=
    (List.Perm.pairwise_iff hsym hperm).2 hpool
  have hGCN : GetClosestNodes rt t count =
      (if count < (sortByDistance t (collectLoop rt (GetBucketIndex rt t) count 256 1
          (rt.buckets (GetBucketIndex rt t)))).length then
        (sortByDistance t (collectLoop rt (GetBucketIndex rt t) count 256 1
          (rt.buckets (GetBucketIndex rt t)))).take count
       else sortByDistance t (collectLoop rt (GetBucketIndex rt t) count 256 1
          (rt.buckets (GetBucketIndex rt t)))) := rfl
  rw [hGCN]
  split
  · next hlt =>
    refine ⟨by simp, ?_, ?_⟩
    · exact List.Pairwise.sublist (List.take_sublist _ _) hsorted
    · exact List.Pairwise.sublist (List.take_sublist _ _) hpw
  · next hge => exact ⟨by omega, hsorted, hpw⟩

/-- Witness for C7 on a concrete populated table. -/
theorem getClosestNodes_spec_witness :
    (GetClosestNodes (rtUpdate freshRT otherContact) oneId 20).length ≤ 20 ∧
    List.Sorted (distLe oneId) (GetClosestNodes (rtUpdate freshRT otherContact) oneId 20) ∧
    (GetClosestNodes (rtUpdate freshRT otherContact) oneId 20).Pairwise
      (fun a b => a.id ≠ b.id) :=
  getClosestNodes_spec (rtUpdate freshRT otherContact) oneId 20 (by decide)

/-! ### Iterative lookup, store and find-value
(`src/dht/node.go`: `Store`, `FindValue`, `HandleFindNode`,
`startReplicationTimer`; the `LookupState` and `NodeLookup` used by the
256-bit node).  Outbound RPCs (`Network.SendFindNode`, `SendFindValue`,
`SendStore`, network.go) are an oracle: `none`/`false` stands for a
send failure or timeout. -/

/-- The remote side of the transport, as seen by one node. -/
structure Network where
  sendFindNode : Contact → Bytes32 → Option (List Contact)
  sendFindValue : Contact → Bytes32 → Option (Option (List Nat) × List Contact)
  sendStore : Contact → Bytes32 → List Nat → Bool

/-- Model of `LookupState`: shortlist plus contacted set (the Go
`map[NodeID]bool` becomes the list of ids marked true). -/
structure LookupState where
  target : Bytes32
  shortlist : List Contact
  contacted : List Bytes32
deriving DecidableEq, Repr

/-- The body of `LookupState.Append`: add contacts whose id is not yet
present. -/
def lsAppendRaw (sl : List Contact) (cs : List Contact) : List Contact :=
  cs.foldl (fun acc c => if acc.any (fun e => e.id = c.id) then acc else acc ++ [c]) sl

/-- Model of `LookupState.Append`: dedup by id, then re-sort the shortlist by
XOR distance to the target (`LookupState.Sort`). -/
def lsAppend (ls : LookupState) (cs : List Contact) : LookupState :=
  { ls with shortlist := sortByDistance ls.target (lsAppendRaw ls.shortlist cs) }

/-- Model of `NewLookupState`. -/
def NewLookupState (t : Bytes32) (initial : List Contact) : LookupState :=
  lsAppend ⟨t, [], []⟩ initial

/-- Model of `LookupState.PickNextBest`: first shortlist entry not yet contacted. -/
def PickNextBest (ls : LookupState) : Option Contact :=
  ls.shortlist.find? (fun c => decide (c.id ∉ ls.contacted))

/-- Model of `LookupState.MarkContacted`. -/
def MarkContacted (ls : LookupState) (i : Bytes32) : LookupState :=
  { ls with contacted := i :: ls.contacted }

/-- The loop of `Node.NodeLookup`.  Fuel bounds the number of RPC
rounds; on exhaustion the current best prefix is returned, matching
the Go loop which always terminates once every shortlist entry is
contacted. -/
def nodeLookupLoop (net : Network) (target : Bytes32) :
    Nat → LookupState → RoutingTable → List Contact × RoutingTable
  | 0, ls, rt =>
    (if K < ls.shortlist.length then ls.shortlist.take K else ls.shortlist, rt)
  | fuel + 1, ls, rt =>
    match PickNextBest ls with
    | none =>
      (if K < ls.shortlist.length then ls.shortlist.take K else ls.shortlist, rt)
    | some c =>
      let ls₁ := MarkContacted ls c.id
      match net.sendFindNode c target with
      | none => nodeLookupLoop net target fuel ls₁ rt
      | some newNodes =>
        let ls₂ := lsAppend ls₁ newNodes
        let rt' := rtUpdate rt c
        match newNodes.find? (fun r => decide (r.id = target)) with
        | some r => ([r], rt')
        | none => nodeLookupLoop net target fuel ls₂ rt'

/-- Model of `Node.NodeLookup`: seed with the `K` closest local contacts, crawl
until no unqueried contact remains, return the first `K` shortlist
entries (or the exact-match contact alone). -/
def NodeLookup (net : Network) (rt : RoutingTable) (target : Bytes32) (fuel : Nat) :
    List Contact × RoutingTable :=
  nodeLookupLoop net target fuel (NewLookupState target (GetClosestNodes rt target K)) rt

/-- Lookup in the local storage map (`n.Storage[key]`). -/
def storageLookup (s : List (Bytes32 × List Nat)) (k : Bytes32) : Option (List Nat) :=
  (s.find? (fun kv => decide (kv.1 = k))).map (·.2)

/-- Map write `n.Storage[key] = value` (last writer wins). -/
def storageInsert (s : List (Bytes32 × List Nat)) (k : Bytes32) (v : List Nat) :
    List (Bytes32 × List Nat) :=
  (k, v) :: s.eraseP (fun kv => decide (kv.1 = k))

/-- Model of `Node.startReplicationTimer` on the timer table: stop any existing
timer for the key, then record a fresh one (exactly one active timer
per key). The ticker itself is wall-clock machinery. -/
def startReplicationTimer (timers : List Bytes32) (key : Bytes32) : List Bytes32 :=
  key :: timers.eraseP (fun k => decide (k = key))

/-- The mutable parts of `dht.Node` these claims are about. -/
structure NodeState where
  rt : RoutingTable
  storage : List (Bytes32 × List Nat)
  timers : List Bytes32

/-- The single error `Node.Store` can return
("no nodes available for replication"). -/
inductive StoreErr where
  | noNodesAvailable
deriving DecidableEq, Repr

/-- The `successCount` of `Node.Store`: replicas that acknowledged,
self excluded. -/
def storeSuccessCount (net : Network) (self : Contact) (closest : List Contact)
    (key : Bytes32) (value : List Nat) : Nat :=
  ((closest.filter (fun c => decide (c.id ≠ self.id))).filter
    (fun c => net.sendStore c key value)).length

/-- Model of `Node.Store` (node.go): `NodeLookup(key)`; if no candidate was
found, store locally and return the informational error — note, no
timer is started on this path; otherwise fan out STORE RPCs, store
locally, start-or-restart the key's replication timer, return nil. -/
def Store (net : Network) (st : NodeState) (key : Bytes32) (value : List Nat)
    (fuel : Nat) : NodeState × Option StoreErr :=
  let res := NodeLookup net st.rt key fuel
  if res.1.isEmpty then
    ({ st with
        rt := res.2
        storage := storageInsert st.storage key value },
      some .noNodesAvailable)
  else
    ({ st with
        rt := res.2
        storage := storageInsert st.storage key value
        timers := startReplicationTimer st.timers key },
      none)

/-- The three outcomes of `Node.FindValue`: value found after so many
hops, "key not found in DHT" after exhausting the shortlist, or
"key not found: no nodes in network" (empty seed set, zero hops). -/
inductive FVOut where
  | foundVal : List Nat → Nat → FVOut
  | notFoundExhausted : Nat → FVOut
  | notFoundNoNodes : FVOut
deriving DecidableEq, Repr

/-- The hop counter `Node.FindValue` reports with each outcome. -/
def FVOut.hopCount : FVOut → Nat
  | foundVal _ h => h
  | notFoundExhausted h => h
  | notFoundNoNodes => 0

/-- The iterative FIND_VALUE loop of `Node.FindValue` (node.go):
pick the closest uncontacted contact, count the hop, send the RPC,
mark contacted; on error continue, on a value reply return it, on a
nodes reply merge and passively update the routing table.  `none`
means the fuel ran out before the crawl finished. -/
def findValueLoop (net : Network) (key : Bytes32) :
    Nat → LookupState → Nat → RoutingTable →
    Option (FVOut × LookupState × RoutingTable)
  | 0, _, _, _ => none
  | fuel + 1, ls, hops, rt =>
    match PickNextBest ls with
    | none => some (.notFoundExhausted hops, ls, rt)
    | some c =>
      let ls₁ := MarkContacted ls c.id
      match net.sendFindValue c key with
      | none => findValueLoop net key fuel ls₁ (hops + 1) rt
      | some (some v, _) => some (.foundVal v (hops + 1), ls₁, rt)
      | some (none, ns) =>
        let ls₂ := if ns.isEmpty then ls₁ else lsAppend ls₁ ns
        findValueLoop net key fuel ls₂ (hops + 1) (rtUpdate rt c)

/-- The trivial lookup state used for the pre-loop exits. -/
def emptyLS (key : Bytes32) : LookupState := ⟨key, [], []⟩

/-- Model of `Node.FindValue` (node.go): local hit returns `(value, 0)` without
touching anything; otherwise seed with the 20 closest contacts (empty
seed set fails immediately with 0 hops) and crawl.  The commented-out
local cache of discovered values is absent, so storage is never
written. -/
def FindValue (net : Network) (st : NodeState) (key : Bytes32) (fuel : Nat) :
    Option (FVOut × LookupState × NodeState) :=
  match storageLookup st.storage key with
  | some v => some (.foundVal v 0, emptyLS key, st)
  | none =>
    let seeds := GetClosestNodes st.rt key 20
    if seeds.isEmpty then some (.notFoundNoNodes, emptyLS key, st)
    else
      (findValueLoop net key fuel (NewLookupState key seeds) 0 st.rt).map
        (fun r => (r.1, r.2.1, { st with rt := r.2.2 }))

theorem storageLookup_insert (s : List (Bytes32 × List Nat)) (k : Bytes32)
    (v : List Nat) : storageLookup (storageInsert s k v) k = some v := by
  simp [storageLookup, storageInsert]

theorem store_storage (net : Network) (st : NodeState) (key : Bytes32)
    (value : List Nat) (fuel : Nat) :
    (Store net st key value fuel).1.storage = storageInsert st.storage key value := by
  show (if (NodeLookup net st.rt key fuel).1.isEmpty then _ else _ : NodeState × Option StoreErr).1.storage = _
  split <;> rfl

/-- Claim C10: `HandleFindNode` never returns a contact whose id is the
sender's id — the requester is filtered out of FIND_NODE replies. -/
theorem handleFindNode_excludes_sender (rt : RoutingTable) (sender : Contact)
    (targetID : Bytes32) :
    ∀ c ∈ (HandleFindNode rt sender targetID).1, c.id ≠ sender.id := by
  intro c hc
  have h := (List.mem_filter.1 hc).2
  simpa using h

/-- A second distinct remote id. -/
def twoId : Bytes32 := ⟨List.replicate 31 0 ++ [2], by simp⟩

/-- A requesting peer. -/
def senderContact : Contact := ⟨twoId, [], 9002⟩

/-- Witness for C10: on a table holding another contact, the reply is
nonempty and excludes the sender. -/
theorem handleFindNode_excludes_sender_witness :
    otherContact ∈ (HandleFindNode (rtUpdate freshRT otherContact) senderContact oneId).1 ∧
    otherContact.id ≠ senderContact.id :=
  ⟨by decide,
   handleFindNode_excludes_sender (rtUpdate freshRT otherContact) senderContact oneId
     otherContact (by decide)⟩

theorem newLookupState_contacted (t : Bytes32) (l : List Contact) :
    (NewLookupState t l).contacted = [] := rfl

theorem lsAppend_contacted (ls : LookupState) (cs : List Contact) :
    (lsAppend ls cs).contacted = ls.contacted := rfl

/-- The FIND_VALUE crawl counts one hop per contacted candidate: when
it terminates with "not found", the hop count equals the number of
contacted entries and every shortlist member was contacted (including
candidates whose RPC errored — errors only `continue`). -/
theorem findValueLoop_exhausted (net : Network) (key : Bytes32) :
    ∀ fuel (ls : LookupState) (hops : Nat) (rt : RoutingTable) (h : Nat)
      (ls' : LookupState) (rt' : RoutingTable),
      hops = ls.contacted.length →
      findValueLoop net key fuel ls hops rt = some (.notFoundExhausted h, ls', rt') →
      h = ls'.contacted.length ∧ ∀ c ∈ ls'.shortlist, c.id ∈ ls'.contacted := by
  intro fuel
  induction fuel with
  | zero =>
    intro ls hops rt h ls' rt' _ hfv
    exact absurd hfv (by simp [findValueLoop])
  | succ fuel ih =>
    intro ls hops rt h ls' rt' hhops hfv
    rw [findValueLoop] at hfv
    cases hpick : PickNextBest ls with
    | none =>
      rw [hpick] at hfv
      simp only [Option.some.injEq, Prod.mk.injEq] at hfv
      obtain ⟨h₁, h₂, _⟩ := hfv
      have hh : h = hops := (FVOut.notFoundExhausted.inj h₁).symm
      subst h₂
      refine ⟨hh.trans hhops, ?_⟩
      intro c hc
      have := List.find?_eq_none.1 hpick c hc
      simpa using this
    | some c =>
      rw [hpick] at hfv
      dsimp only at hfv
      have hmark : (MarkContacted ls c.id).contacted.length = hops + 1 := by
        simp [MarkContacted, hhops]
      cases hnet : net.sendFindValue c key with
      | none =>
        rw [hnet] at hfv
        dsimp only at hfv
        exact ih _ _ _ h ls' rt' hmark.symm hfv
      | some pr =>
        obtain ⟨vo, ns⟩ := pr
        cases vo with
        | some w =>
          rw [hnet] at hfv
          dsimp only at hfv
          simp only [Option.some.injEq, Prod.mk.injEq] at hfv
          exact absurd hfv.1 (by simp)
        | none =>
          rw [hnet] at hfv
          dsimp only at hfv
          have hcont :
              (if ns.isEmpty then MarkContacted ls c.id
               else lsAppend (MarkContacted ls c.id) ns).contacted.length = hops + 1 := by
            split
            · exact hmark
            · rw [lsAppend_contacted]; exact hmark
          exact ih _ _ _ h ls' rt' hcont.symm hfv

/-- Claim C9: for a key absent locally, `FindValue` fails with
NotFound: with 0 hops when the routing table yields no seed
candidates; otherwise, at exhaustion, the hop count equals the number
of contacted shortlist entries and every shortlist contact was
contacted (erroring contacts are counted and skipped, not fatal). -/
theorem findValue_notFound_spec (net : Network) (st : NodeState) (key : Bytes32)
    (fuel : Nat) :
    (storageLookup st.storage key = none → GetClosestNodes st.rt key 20 = [] →
      FindValue net st key fuel = some (.notFoundNoNodes, emptyLS key, st) ∧
      FVOut.hopCount FVOut.notFoundNoNodes = 0) ∧
    (∀ (h : Nat) (ls' : LookupState) (st' : NodeState),
      FindValue net st key fuel = some (.notFoundExhausted h, ls', st') →
      h = ls'.contacted.length ∧ ∀ c ∈ ls'.shortlist, c.id ∈ ls'.contacted) := by
  constructor
  · intro h0 hempty
    unfold FindValue
    simp only [h0, hempty]
    exact ⟨rfl, rfl⟩
  · intro h ls' st' hfv
    unfold FindValue at hfv
    cases hsl : storageLookup st.storage key with
    | some w =>
      rw [hsl] at hfv
      simp only [Option.some.injEq, Prod.mk.injEq] at hfv
      exact absurd hfv.1 (by simp)
    | none =>
      rw [hsl] at hfv
      simp only at hfv
      split at hfv
      · simp only [Option.some.injEq, Prod.mk.injEq] at hfv
        exact absurd hfv.1 (by simp)
      · rcases Option.map_eq_some'.1 hfv with ⟨r, hr, heq⟩
        obtain ⟨out, lsr, rtr⟩ := r
        simp only [Prod.mk.injEq] at heq
        obtain ⟨hout, hls, _⟩ := heq
        subst hout
        subst hls
        refine findValueLoop_exhausted net key fuel _ 0 st.rt h lsr rtr ?_ hr
        rw [newLookupState_contacted]
        rfl

/-- Claim C8: `FindValue` returns `(value, 0)` on a local hit, never
writes the storage map (no back-caching of values discovered over the
network), and a freshly stored key is found locally with 0 hops. -/
theorem findValue_local_contract (net : Network) (st : NodeState) (key : Bytes32)
    (v : List Nat) (fuel : Nat) :
    (storageLookup st.storage key = some v →
      FindValue net st key fuel = some (.foundVal v 0, emptyLS key, st)) ∧
    (∀ (out : FVOut) (ls' : LookupState) (st' : NodeState),
      FindValue net st key fuel = some (out, ls', st') →
      st'.storage = st.storage) ∧
    (∀ fuel₂ : Nat, FindValue net (Store net st key v fuel).1 key fuel₂ =
      some (.foundVal v 0, emptyLS key, (Store net st key v fuel).1)) := by
  refine ⟨?_, ?_, ?_⟩
  · intro h
    unfold FindValue
    rw [h]
  · intro out ls' st' hfv
    unfold FindValue at hfv
    cases hsl : storageLookup st.storage key with
    | some w =>
      rw [hsl] at hfv
      simp only [Option.some.injEq, Prod.mk.injEq] at hfv
      rw [← hfv.2.2]
    | none =>
      rw [hsl] at hfv
      simp only at hfv
      split at hfv
      · simp only [Option.some.injEq, Prod.mk.injEq] at hfv
        rw [← hfv.2.2]
      · rcases Option.map_eq_some'.1 hfv with ⟨r, _, heq⟩
        simp only [Prod.mk.injEq] at heq
        rw [← heq.2.2]
  · intro fuel₂
    have hls : storageLookup (Store net st key v fuel).1.storage key = some v := by
      rw [store_storage]
      exact storageLookup_insert _ _ _
    unfold FindValue
    rw [hls]

/-- A network on which every RPC fails. -/
def netNone : Network := ⟨fun _ _ => none, fun _ _ => none, fun _ _ _ => false⟩

/-- A single genesis node: fresh routing table, no data, no timers. -/
def genesisState : NodeState := ⟨freshRT, [], []⟩

/-- Claim C1 at its failing input: a `Store` on a genesis node (empty
routing table, so `NodeLookup` yields no candidates) stores the value
locally and returns the informational error, but the replication-timer
table stays empty — `startReplicationTimer` is skipped on this path,
although spec and `REPLICATION_TIMER.md` require the timer to start on
every local store. -/
theorem store_genesis_divergence :
    storageLookup (Store netNone genesisState oneId [42] 5).1.storage oneId = some [42] ∧
    (Store netNone genesisState oneId [42] 5).1.timers = [] ∧
    (Store netNone genesisState oneId [42] 5).2 = some StoreErr.noNodesAvailable := by
  refine ⟨by decide, by decide, by decide⟩

/-- A node that already holds a value for `oneId`. -/
def st3 : NodeState := ⟨freshRT, [(oneId, [7])], []⟩

/-- Witness for C8 at a concrete node state. -/
theorem findValue_local_contract_witness :
    FindValue netNone st3 oneId 3 = some (.foundVal [7] 0, emptyLS oneId, st3) ∧
    st3.storage = st3.storage :=
  ⟨(findValue_local_contract netNone st3 oneId [7] 3).1 rfl,
   (findValue_local_contract netNone st3 oneId [7] 3).2.1 (.foundVal [7] 0)
     (emptyLS oneId) st3 ((findValue_local_contract netNone st3 oneId [7] 3).1 rfl)⟩

/-- A network whose FIND_VALUE replies are "no value, no closer nodes". -/
def netEmptyReply : Network :=
  ⟨fun _ _ => none, fun _ _ => some (none, []), fun _ _ _ => false⟩

/-- A node that knows exactly one peer. -/
def st2 : NodeState := ⟨rtUpdate freshRT otherContact, [], []⟩

/-- The lookup state after that peer has been contacted. -/
def lsW : LookupState := ⟨twoId, [otherContact], [oneId]⟩

/-- The state `st2` after the passive routing-table update of the crawl. -/
def st2' : NodeState := ⟨rtUpdate (rtUpdate freshRT otherContact) otherContact, [], []⟩

/-- Witness for C9: both the empty-seed case and an exhausted crawl at
concrete inputs. -/
theorem findValue_notFound_spec_witness :
    (FindValue netNone genesisState oneId 5 =
        some (.notFoundNoNodes, emptyLS oneId, genesisState) ∧
      FVOut.hopCount FVOut.notFoundNoNodes = 0) ∧
    (1 = lsW.contacted.length ∧ ∀ c ∈ lsW.shortlist, c.id ∈ lsW.contacted) :=
  ⟨(findValue_notFound_spec netNone genesisState oneId 5).1 rfl (by decide),
   (findValue_notFound_spec netEmptyReply st2 twoId 5).2 1 lsW st2' (by rfl)⟩

/-! ### Join-request handling
(`Node.HandleJoinRequest`, node.go; the JOIN_REQ case of
`Network.handlePacket`, network.go).  Public-key parsing
(`x509.ParsePKIXPublicKey` plus the ECDSA cast) is the oracle
`parsePub`; peer-id derivation (`SHA256(pubkey ∥ SALT)`, checked by
`id_tools.CheckPublicKeyMatchesPeerID`) is the oracle `derive`. -/

/-- Model of `dht.JoinRequestPayload` (message.go). -/
structure JoinRequestPayload where
  peerID : Bytes32
  publicKey : List Nat
deriving DecidableEq, Repr

/-- Model of `dht.PendingChallenge` (node.go). -/
structure PendingChallenge where
  nonce : List Nat
  timestamp : Nat
  pubKey : List Nat
deriving DecidableEq, Repr

/-- Model of `dht.JoinChallengePayload` (message.go). -/
structure JoinChallengePayload where
  nonce : List Nat
deriving DecidableEq, Repr

/-- The error exits of `HandleJoinRequest`. -/
inductive JoinRequestError where
  | invalidKey
  | sybil
deriving DecidableEq, Repr

/-- Model of `Node.HandleJoinRequest` (node.go): parse the public key, require
that it derives the claimed peer id (else reject as Sybil), then
record the pending challenge under the claimed id and return the
nonce challenge. -/
def HandleJoinRequest {κ : Type} (parsePub : List Nat → Option κ)
    (derive : κ → Bytes32) (nonce : List Nat) (now : Nat)
    (pending : List (Bytes32 × PendingChallenge)) (payload : JoinRequestPayload) :
    List (Bytes32 × PendingChallenge) × Except JoinRequestError JoinChallengePayload :=
  match parsePub payload.publicKey with
  | none => (pending, .error .invalidKey)
  | some pub =>
    if derive pub ≠ payload.peerID then
      (pending, .error .sybil)
    else
      ((payload.peerID, ⟨nonce, now, payload.publicKey⟩) ::
         pending.eraseP (fun kv => decide (kv.1 = payload.peerID)),
       .ok ⟨nonce⟩)

/-- The JOIN_REQ case of `Network.handlePacket` (network.go): on a
handler error the server only logs and returns — NO datagram goes
back; on success it responds with the JOIN_CHALLENGE. The second
component is the response datagram, `none` meaning nothing is sent. -/
def handlePacketJoinReq {κ : Type} (parsePub : List Nat → Option κ)
    (derive : κ → Bytes32) (nonce : List Nat) (now : Nat)
    (pending : List (Bytes32 × PendingChallenge)) (payload : JoinRequestPayload) :
    List (Bytes32 × PendingChallenge) × Option JoinChallengePayload :=
  let r := HandleJoinRequest parsePub derive nonce now pending payload
  match r.2 with
  | .error _ => (r.1, none)
  | .ok ch => (r.1, some ch)

/-- Claim C5 (amended): a JOIN_REQ whose public key parses but does not
derive the claimed peer id is rejected without recording a pending
challenge — and without sending any response datagram at all; the
joiner therefore times out awaiting JOIN_CHALLENGE instead of
receiving a `success=false` Sybil ack. -/
theorem joinReq_sybil_drops {κ : Type} (parsePub : List Nat → Option κ)
    (derive : κ → Bytes32) (nonce : List Nat) (now : Nat)
    (pending : List (Bytes32 × PendingChallenge)) (payload : JoinRequestPayload)
    (pub : κ) (hparse : parsePub payload.publicKey = some pub)
    (hmismatch : derive pub ≠ payload.peerID) :
    handlePacketJoinReq parsePub derive nonce now pending payload = (pending, none) := by
  unfold handlePacketJoinReq HandleJoinRequest
  rw [hparse]
  simp [hmismatch]

/-- The public key bytes used by the concrete Sybil counterexample. -/
def cexPubKeyBytes : List Nat := [4, 1, 2, 3]

/-- A JOIN_REQ claiming `twoId` with a key that derives `oneId`. -/
def cexJoinPayload : JoinRequestPayload := ⟨twoId, cexPubKeyBytes⟩

/-- Claim C5 counterexample: at a concrete Sybil JOIN_REQ (a key that
derives `oneId` while the payload claims `twoId`), the server sends no
rejection — the response slot is `none` — and records nothing, so the
joiner can never receive a `success=false` ack with a Sybil reason. -/
theorem joinReq_sybil_no_response :
    handlePacketJoinReq (fun _ => some ()) (fun _ => oneId) [9] 0 [] cexJoinPayload
      = ([], none) := by
  decide

/-- Witness for C5: the amended no-response theorem at the same
concrete input. -/
theorem joinReq_sybil_drops_witness :
    handlePacketJoinReq (fun _ => some ()) (fun _ => oneId) [9] 0
      [(oneId, ⟨[1], 0, []⟩)] cexJoinPayload = ([(oneId, ⟨[1], 0, []⟩)], none) :=
  joinReq_sybil_drops (fun _ => some ()) (fun _ => oneId) [9] 0
    [(oneId, ⟨[1], 0, []⟩)] cexJoinPayload () rfl (by decide)

/-! ### Proof of Space (`src/unnamed/part_005`, package pos)
Plot generation by chunked external merge sort, the on-disk
binary-search proof lookup, and proof verification.  The plot file is
the list of its entries; `readEntryAt` is the positional read. -/

/-- Model of `pos.PlotEntry`: an index and `SHA256(hex64(peerID) ∥ "_" ∥ dec(index))`. -/
structure PlotEntry where
  index : Nat
  hash : Bytes32
deriving DecidableEq, Repr

instance : Inhabited PlotEntry := ⟨⟨0, default⟩⟩

/-- Model of `pos.compareHashes` (lexicographic byte comparison, -1/0/1),
written as list recursion; on the 32-byte values it visits exactly the
32 positions the Go loop does. -/
def compareList : List Nat → List Nat → Int
  | a :: as, b :: bs =>
    if a < b then -1 else if b < a then 1 else compareList as bs
  | _, _ => 0

/-- The `compareHashes` comparison on 32-byte digests. -/
def compareHashes (a b : Bytes32) : Int := compareList a.val b.val

theorem compareList_swap : ∀ (a b : List Nat), compareList b a = -compareList a b := by
  intro a
  induction a with
  | nil => intro b; cases b <;> simp [compareList]
  | cons x xs ih =>
    intro b
    cases b with
    | nil => simp [compareList]
    | cons y ys =>
      simp only [compareList]
      rcases Nat.lt_trichotomy x y with h | h | h
      · simp [h, Nat.not_lt.2 (Nat.le_of_lt h)]
      · subst h
        simp [ih]
      · simp [h, Nat.not_lt.2 (Nat.le_of_lt h)]

theorem compareList_le_trans : ∀ {a b c : List Nat}, a.length = b.length →
    b.length = c.length → compareList a b ≤ 0 → compareList b c ≤ 0 →
    compareList a c ≤ 0 := by
  intro a
  induction a with
  | nil =>
    intro b c hab hbc _ _
    cases b with
    | nil =>
      cases c with
      | nil => simp [compareList]
      | cons z zs => simp at hbc
    | cons y ys => simp at hab
  | cons x xs ih =>
    intro b c hab hbc h₁ h₂
    cases b with
    | nil => simp at hab
    | cons y ys =>
      cases c with
      | nil => simp at hbc
      | cons z zs =>
        simp only [compareList] at h₁ h₂ ⊢
        simp only [List.length_cons, Nat.add_right_cancel_iff] at hab hbc
        rcases Nat.lt_trichotomy x y with hxy | hxy | hxy
        · rcases Nat.lt_trichotomy y z with hyz | hyz | hyz
          · have hxz : x < z := Nat.lt_trans hxy hyz
            simp [hxz]
          · subst hyz
            simp [hxy]
          · exfalso
            simp [hyz, Nat.not_lt.2 (Nat.le_of_lt hyz)] at h₂
        · subst hxy
          rcases Nat.lt_trichotomy x z with hyz | hyz | hyz
          · simp [hyz]
          · subst hyz
            simp only [Nat.lt_irrefl, if_false]
            simp [Nat.lt_irrefl] at h₁ h₂
            exact ih hab hbc h₁ h₂
          · exfalso
            simp [hyz, Nat.not_lt.2 (Nat.le_of_lt hyz)] at h₂
        · exfalso
          simp [hxy, Nat.not_lt.2 (Nat.le_of_lt hxy)] at h₁

/-- The ordering the plot is sorted by: hash ascending. -/
def entryLe (a b : PlotEntry) : Prop := compareHashes a.hash b.hash ≤ 0

instance : DecidableRel entryLe := fun a b => by
  unfold entryLe
  infer_instance

theorem entryLe_total (a b : PlotEntry) : entryLe a b ∨ entryLe b a := by
  unfold entryLe compareHashes
  rcases Int.lt_or_le 0 (compareList a.hash.val b.hash.val) with h | h
  · right
    rw [compareList_swap a.hash.val b.hash.val]
    omega
  · left
    exact h

theorem entryLe_trans {a b c : PlotEntry} (h₁ : entryLe a b) (h₂ : entryLe b c) :
    entryLe a c := by
  unfold entryLe compareHashes at h₁ h₂ ⊢
  exact compareList_le_trans
    (a.hash.2.trans b.hash.2.symm) (b.hash.2.trans c.hash.2.symm) h₁ h₂

/-- The in-memory `sort.Slice` of one generation chunk. -/
def sortChunk (l : List PlotEntry) : List PlotEntry := List.insertionSort entryLe l

theorem sortChunk_sorted (l : List PlotEntry) : List.Sorted entryLe (sortChunk l) := by
  haveI : IsTotal PlotEntry entryLe := ⟨entryLe_total⟩
  haveI : IsTrans PlotEntry entryLe := ⟨fun _ _ _ => entryLe_trans⟩
  exact List.sorted_insertionSort _ l

/-- One lowercase hex digit of `%x`, as an ASCII byte. -/
def hexDigit (n : Nat) : Nat := if n < 10 then 48 + n else 87 + n

/-- Model of `fmt.Sprintf("%064x", peerID)` for a 32-byte id: two lowercase hex
digits per byte, 64 ASCII bytes total. -/
def hexBytes (p : Bytes32) : List Nat :=
  p.val.flatMap (fun b => [hexDigit (b / 16), hexDigit (b % 16)])

/-- ASCII `'_'`. -/
def underscoreByte : Nat := 95

/-- Decimal digits of `%d`, most significant first (fuel-style: `n+1`
steps always suffice since the argument shrinks by ÷10). -/
def decimalDigitsAux : Nat → Nat → List Nat
  | 0, _ => []
  | fuel + 1, n =>
    if n < 10 then [48 + n]
    else decimalDigitsAux fuel (n / 10) ++ [48 + n % 10]

/-- Model of `fmt.Sprintf("%d", n)` as ASCII bytes. -/
def decimalDigits (n : Nat) : List Nat := decimalDigitsAux (n + 1) n

/-- The raw value `"%064x_%d"` of peer id and index. -/
def rawValueBytes (p : Bytes32) (i : Nat) : List Nat :=
  hexBytes p ++ [underscoreByte] ++ decimalDigits i

theorem hexDigit_ne_underscore (n : Nat) : hexDigit n ≠ underscoreByte := by
  unfold hexDigit underscoreByte
  split <;> omega

theorem underscore_not_mem_hexBytes (p : Bytes32) : underscoreByte ∉ hexBytes p := by
  intro h
  unfold hexBytes at h
  rcases List.mem_flatMap.1 h with ⟨b, _, hb⟩
  simp only [List.mem_cons, List.mem_singleton] at hb
  rcases hb with hb | hb | hb
  · exact hexDigit_ne_underscore _ hb.symm
  · exact hexDigit_ne_underscore _ hb.symm
  · cases hb

theorem decimalDigitsAux_digits : ∀ fuel n b, b ∈ decimalDigitsAux fuel n →
    48 ≤ b ∧ b ≤ 57 := by
  intro fuel
  induction fuel with
  | zero => intro n b h; cases h
  | succ fuel ih =>
    intro n b h
    unfold decimalDigitsAux at h
    split at h
    · next hn =>
      rw [List.mem_singleton] at h
      omega
    · rcases List.mem_append.1 h with h | h
      · exact ih _ _ h
      · rw [List.mem_singleton] at h
        have := Nat.mod_lt n (by omega : 0 < 10)
        omega

theorem underscore_not_mem_decimalDigits (n : Nat) :
    underscoreByte ∉ decimalDigits n := by
  intro h
  have := decimalDigitsAux_digits _ _ _ h
  unfold underscoreByte at this
  omega

/-- Little-endian byte serialization (`binary.Write` with
`binary.LittleEndian` of a uint64 when `k = 8`). -/
def leBytes : Nat → Nat → List Nat
  | 0, _ => []
  | k + 1, n => n % 256 :: leBytes k (n / 256)

theorem leBytes_length (k n : Nat) : (leBytes k n).length = k := by
  induction k generalizing n with
  | zero => rfl
  | succ k ih => simp [leBytes, ih]

/-- One plot-file record: 8-byte little-endian index followed by the
32-byte hash (40 bytes), as written by `savePlot` and
`mergeSortedChunks`. -/
def serializeEntry (e : PlotEntry) : List Nat := leBytes 8 e.index ++ e.hash.val

theorem serializeEntry_length (e : PlotEntry) : (serializeEntry e).length = 40 := by
  unfold serializeEntry
  rw [List.length_append, leBytes_length, e.hash.2]

/-- The reader selection of `mergeSortedChunks`: scan the chunk
readers left to right and keep the first whose buffered entry is
strictly smallest (`compareHashes < 0` replaces the current minimum,
so ties keep the earlier reader).  Returns the taken entry and the
readers with that entry consumed (exhausted readers stay in place,
like the `hasMore` flag). -/
def pickMin : List (List PlotEntry) → Option (PlotEntry × List (List PlotEntry))
  | [] => none
  | [] :: rest =>
    match pickMin rest with
    | none => none
    | some (e, rest') => some (e, [] :: rest')
  | (a :: as) :: rest =>
    match pickMin rest with
    | none => some (a, as :: rest)
    | some (b, rest') =>
      if compareHashes b.hash a.hash < 0 then some (b, (a :: as) :: rest')
      else some (a, as :: rest)

theorem pickMin_eq_none : ∀ {ls : List (List PlotEntry)},
    pickMin ls = none → ls.flatten = [] := by
  intro ls
  induction ls with
  | nil => intro _; rfl
  | cons hd rest ih =>
    intro h
    cases hd with
    | nil =>
      rw [pickMin] at h
      cases hrest : pickMin rest with
      | none => simp [ih hrest]
      | some pr => rw [hrest] at h; cases h
    | cons a as =>
      rw [pickMin] at h
      cases hrest : pickMin rest with
      | none => rw [hrest] at h; cases h
      | some pr =>
        rw [hrest] at h
        obtain ⟨b, rest'⟩ := pr
        dsimp only at h
        split at h <;> cases h

theorem pickMin_perm : ∀ {ls : List (List PlotEntry)} {e : PlotEntry}
    {ls' : List (List PlotEntry)}, pickMin ls = some (e, ls') →
    ls.flatten.Perm (e :: ls'.flatten) := by
  intro ls
  induction ls with
  | nil => intro e ls' h; cases h
  | cons hd rest ih =>
    intro e ls' h
    cases hd with
    | nil =>
      rw [pickMin] at h
      cases hrest : pickMin rest with
      | none => rw [hrest] at h; cases h
      | some pr =>
        rw [hrest] at h
        obtain ⟨b, rest'⟩ := pr
        simp only [Option.some.injEq, Prod.mk.injEq] at h
        obtain ⟨he, hls⟩ := h
        subst he
        subst hls
        simpa using ih hrest
    | cons a as =>
      rw [pickMin] at h
      cases hrest : pickMin rest with
      | none =>
        rw [hrest] at h
        simp only [Option.some.injEq, Prod.mk.injEq] at h
        obtain ⟨he, hls⟩ := h
        subst he
        subst hls
        simp
      | some pr =>
        rw [hrest] at h
        obtain ⟨b, rest'⟩ := pr
        dsimp only at h
        split at h
        · simp only [Option.some.injEq, Prod.mk.injEq] at h
          obtain ⟨he, hls⟩ := h
          subst he
          subst hls
          simp only [List.flatten_cons]
          refine List.Perm.trans (List.Perm.append_left (a :: as) (ih hrest)) ?_
          exact List.perm_middle
        · simp only [Option.some.injEq, Prod.mk.injEq] at h
          obtain ⟨he, hls⟩ := h
          subst he
          subst hls
          simp

theorem pickMin_min : ∀ {ls : List (List PlotEntry)} {e : PlotEntry}
    {ls' : List (List PlotEntry)},
    (∀ l ∈ ls, List.Sorted entryLe l) → pickMin ls = some (e, ls') →
    (∀ x ∈ ls'.flatten, entryLe e x) ∧ (∀ l ∈ ls', List.Sorted entryLe l) := by
  intro ls
  induction ls with
  | nil => intro e ls' _ h; cases h
  | cons hd rest ih =>
    intro e ls' hs h
    have hs_hd : List.Sorted entryLe hd := hs hd (List.mem_cons_self hd rest)
    have hs_rest : ∀ l ∈ rest, List.Sorted entryLe l :=
      fun l hl => hs l (List.mem_cons_of_mem hd hl)
    cases hd with
    | nil =>
      rw [pickMin] at h
      cases hrest : pickMin rest with
      | none => rw [hrest] at h; cases h
      | some pr =>
        rw [hrest] at h
        obtain ⟨b, rest'⟩ := pr
        simp only [Option.some.injEq, Prod.mk.injEq] at h
        obtain ⟨he, hls⟩ := h
        subst he
        subst hls
        obtain ⟨hmin, hsort⟩ := ih hs_rest hrest
        refine ⟨by simpa using hmin, ?_⟩
        intro l hl
        rcases List.mem_cons.1 hl with hl | hl
        · rw [hl]; exact List.sorted_nil
        · exact hsort l hl
    | cons a as =>
      have ha_as : ∀ x ∈ as, entryLe a x := fun x hx =>
        List.rel_of_sorted_cons hs_hd x hx
      rw [pickMin] at h
      cases hrest : pickMin rest with
      | none =>
        rw [hrest] at h
        simp only [Option.some.injEq, Prod.mk.injEq] at h
        obtain ⟨he, hls⟩ := h
        subst he
        subst hls
        have hflat : rest.flatten = [] := pickMin_eq_none hrest
        constructor
        · intro x hx
          simp only [List.flatten_cons, hflat, List.append_nil] at hx
          exact ha_as x hx
        · intro l hl
          rcases List.mem_cons.1 hl with hl | hl
          · rw [hl]; exact hs_hd.of_cons
          · exact hs_rest l hl
      | some pr =>
        rw [hrest] at h
        obtain ⟨b, rest'⟩ := pr
        obtain ⟨hmin, hsort⟩ := ih hs_rest hrest
        have hflat := pickMin_perm hrest
        dsimp only at h
        split at h
        · next hlt =>
          simp only [Option.some.injEq, Prod.mk.injEq] at h
          obtain ⟨he, hls⟩ := h
          subst hls
          rw [← he]
          have hba : entryLe b a := by
            unfold entryLe
            omega
          constructor
          · intro x hx
            simp only [List.flatten_cons] at hx
            rcases List.mem_append.1 hx with hx | hx
            · rcases List.mem_cons.1 hx with hx | hx
              · rw [hx]; exact hba
              · exact entryLe_trans hba (ha_as x hx)
            · exact hmin x hx
          · intro l hl
            rcases List.mem_cons.1 hl with hl | hl
            · rw [hl]; exact hs_hd
            · exact hsort l hl
        · next hge =>
          simp only [Option.some.injEq, Prod.mk.injEq] at h
          obtain ⟨he, hls⟩ := h
          subst hls
          rw [← he]
          have hab : entryLe a b := by
            unfold entryLe compareHashes
            unfold compareHashes at hge
            rw [compareList_swap b.hash.val a.hash.val]
            omega
          constructor
          · intro x hx
            simp only [List.flatten_cons] at hx
            rcases List.mem_append.1 hx with hx | hx
            · exact ha_as x hx
            · have hxb : x ∈ b :: rest'.flatten := hflat.subset hx
              rcases List.mem_cons.1 hxb with hxb | hxb
              · rw [hxb]; exact hab
              · exact entryLe_trans hab (hmin x hxb)
          · intro l hl
            rcases List.mem_cons.1 hl with hl | hl
            · rw [hl]; exact hs_hd.of_cons
            · exact hs_rest l hl

/-- The k-way merge loop of `mergeSortedChunks`: repeatedly take the
smallest buffered entry; fuel is the total number of entries. -/
def mergeLoop : Nat → List (List PlotEntry) → List PlotEntry
  | 0, _ => []
  | fuel + 1, ls =>
    match pickMin ls with
    | none => []
    | some (e, ls') => e :: mergeLoop fuel ls'

/-- Model of `pos.mergeSortedChunks`. -/
def mergeSortedChunks (chunks : List (List PlotEntry)) : List PlotEntry :=
  mergeLoop chunks.flatten.length chunks

theorem mergeLoop_perm : ∀ (fuel : Nat) (ls : List (List PlotEntry)),
    ls.flatten.length ≤ fuel → (mergeLoop fuel ls).Perm ls.flatten := by
  intro fuel
  induction fuel with
  | zero =>
    intro ls h
    have : ls.flatten = [] := List.length_eq_zero.1 (Nat.le_zero.1 h)
    rw [mergeLoop, this]
  | succ fuel ih =>
    intro ls h
    rw [mergeLoop]
    cases hp : pickMin ls with
    | none => rw [pickMin_eq_none hp]
    | some pr =>
      obtain ⟨e, ls'⟩ := pr
      have hperm := pickMin_perm hp
      have hlen : ls'.flatten.length ≤ fuel := by
        have h2 := hperm.length_eq
        rw [List.length_cons] at h2
        omega
      exact ((ih ls' hlen).cons e).trans hperm.symm

theorem mergeLoop_subset : ∀ (fuel : Nat) (ls : List (List PlotEntry))
    (x : PlotEntry), x ∈ mergeLoop fuel ls → x ∈ ls.flatten := by
  intro fuel
  induction fuel with
  | zero => intro ls x h; cases h
  | succ fuel ih =>
    intro ls x h
    rw [mergeLoop] at h
    cases hp : pickMin ls with
    | none => rw [hp] at h; cases h
    | some pr =>
      obtain ⟨e, ls'⟩ := pr
      rw [hp] at h
      have hperm := pickMin_perm hp
      rcases List.mem_cons.1 h with h | h
      · rw [h]
        exact hperm.symm.subset (List.mem_cons_self e _)
      · exact hperm.symm.subset (List.mem_cons_of_mem e (ih ls' x h))

theorem mergeLoop_sorted : ∀ (fuel : Nat) (ls : List (List PlotEntry)),
    (∀ l ∈ ls, List.Sorted entryLe l) → List.Sorted entryLe (mergeLoop fuel ls) := by
  intro fuel
  induction fuel with
  | zero => intro ls _; exact List.sorted_nil
  | succ fuel ih =>
    intro ls hs
    rw [mergeLoop]
    cases hp : pickMin ls with
    | none => exact List.sorted_nil
    | some pr =>
      obtain ⟨e, ls'⟩ := pr
      obtain ⟨hmin, hsort⟩ := pickMin_min hs hp
      refine List.sorted_cons.2 ⟨?_, ih ls' hsort⟩
      intro x hx
      exact hmin x (mergeLoop_subset fuel ls' x hx)

theorem mergeSortedChunks_perm (chunks : List (List PlotEntry)) :
    (mergeSortedChunks chunks).Perm chunks.flatten :=
  mergeLoop_perm _ chunks (Nat.le_refl _)

theorem mergeSortedChunks_sorted (chunks : List (List PlotEntry))
    (hs : ∀ l ∈ chunks, List.Sorted entryLe l) :
    List.Sorted entryLe (mergeSortedChunks chunks) :=
  mergeLoop_sorted _ chunks hs

/-- Model of `constants.PosNumEntries` = 400,000. -/
def posNumEntries : Nat := 400000

/-- The chunk size hardcoded in `GeneratePlot` (50,000 entries). -/
def plotChunkSize : Nat := 50000

/-- Model of `numChunks := (N + chunkSize - 1) / chunkSize`. -/
def numChunksF (n cs : Nat) : Nat := (n + cs - 1) / cs

/-- One plot entry of `GeneratePlot`:
`hash = SHA256("%064x_%d" of peerID and index)`. -/
def mkPlotEntry (H : List Nat → Bytes32) (p : Bytes32) (i : Nat) : PlotEntry :=
  ⟨i, H (rawValueBytes p i)⟩

/-- The entries for indices `[s, s+len)`. -/
def segEntries (H : List Nat → Bytes32) (p : Bytes32) (s len : Nat) :
    List PlotEntry :=
  (List.range len).map (fun j => mkPlotEntry H p (s + j))

/-- Chunk `idx` of `GeneratePlot`: indices
`[idx*cs, min (idx*cs + cs) n)`. -/
def chunkOf (H : List Nat → Bytes32) (p : Bytes32) (n cs idx : Nat) :
    List PlotEntry :=
  segEntries H p (idx * cs) (min (idx * cs + cs) n - idx * cs)

/-- Step 1 of `GeneratePlot`: generate every chunk and sort it in
memory. -/
def plotChunks (H : List Nat → Bytes32) (p : Bytes32) (n cs : Nat) :
    List (List PlotEntry) :=
  (List.range (numChunksF n cs)).map (fun idx => sortChunk (chunkOf H p n cs idx))

/-- Model of `GeneratePlot` with the constants as parameters: sorted chunks,
then the k-way merge. -/
def generatePlotEntriesN (H : List Nat → Bytes32) (p : Bytes32) (n cs : Nat) :
    List PlotEntry :=
  mergeSortedChunks (plotChunks H p n cs)

/-- Model of `pos.GeneratePlot` (fresh-generation path) at the reference
constants N = 400,000, chunk size 50,000. -/
def GeneratePlotEntries (H : List Nat → Bytes32) (p : Bytes32) : List PlotEntry :=
  generatePlotEntriesN H p posNumEntries plotChunkSize

/-- The final plot file as written by `mergeSortedChunks`: the packed
records of the merged entries in order. -/
def mergedPlotFileBytes (H : List Nat → Bytes32) (p : Bytes32) : List Nat :=
  (GeneratePlotEntries H p).flatMap serializeEntry

theorem segEntries_append (H : List Nat → Bytes32) (p : Bytes32) (s l₁ l₂ : Nat) :
    segEntries H p s (l₁ + l₂) = segEntries H p s l₁ ++ segEntries H p (s + l₁) l₂ := by
  unfold segEntries
  rw [List.range_add, List.map_append, List.map_map]
  congr 1
  apply List.map_congr_left
  intro j _
  simp only [Function.comp_apply]
  rw [Nat.add_assoc]

theorem flatten_range_chunkOf (H : List Nat → Bytes32) (p : Bytes32) (n cs : Nat) :
    ∀ k, ((List.range k).map (chunkOf H p n cs)).flatten =
      segEntries H p 0 (min (k * cs) n) := by
  intro k
  induction k with
  | zero => simp [segEntries]
  | succ k ih =>
    rw [List.range_succ, List.map_append, List.flatten_append, ih]
    simp only [List.map_cons, List.map_nil, List.flatten_cons, List.flatten_nil,
      List.append_nil]
    by_cases hk : n ≤ k * cs
    · have h₁ : min (k * cs) n = n := Nat.min_eq_right hk
      have h₂ : min ((k + 1) * cs) n = n := by
        refine Nat.min_eq_right (Nat.le_trans hk ?_)
        exact Nat.mul_le_mul_right cs (Nat.le_succ k)
      have h₃ : min (k * cs + cs) n - k * cs = 0 := by
        have : min (k * cs + cs) n ≤ k * cs := by
          refine Nat.le_trans (Nat.min_le_right _ _) hk
        omega
      rw [h₁, h₂]
      unfold chunkOf
      rw [h₃]
      simp [segEntries]
    · have hk' : k * cs < n := Nat.lt_of_not_le hk
      have h₁ : min (k * cs) n = k * cs := Nat.min_eq_left (Nat.le_of_lt hk')
      have hle : k * cs ≤ min (k * cs + cs) n := by
        rcases Nat.le_total (k * cs + cs) n with hc | hc
        · rw [Nat.min_eq_left hc]; omega
        · rw [Nat.min_eq_right hc]; omega
      have h₂ : min ((k + 1) * cs) n = k * cs + (min (k * cs + cs) n - k * cs) := by
        rw [Nat.succ_mul]
        omega
      rw [h₁, h₂]
      unfold chunkOf
      rw [segEntries_append]
      rw [Nat.zero_add]

theorem flatten_map_sortChunk_perm : ∀ (ls : List (List PlotEntry)),
    ((ls.map sortChunk).flatten).Perm ls.flatten := by
  intro ls
  induction ls with
  | nil => exact List.Perm.refl _
  | cons hd rest ih =>
    simp only [List.map_cons, List.flatten_cons]
    haveI : IsTotal PlotEntry entryLe := ⟨entryLe_total⟩
    haveI : IsTrans PlotEntry entryLe := ⟨fun _ _ _ => entryLe_trans⟩
    exact List.Perm.append (List.perm_insertionSort entryLe hd) ih

theorem generatePlot_perm (H : List Nat → Bytes32) (p : Bytes32) (n cs : Nat)
    (hcs : 0 < cs) :
    (generatePlotEntriesN H p n cs).Perm (segEntries H p 0 n) := by
  unfold generatePlotEntriesN
  refine (mergeSortedChunks_perm _).trans ?_
  unfold plotChunks
  have hmap : (List.range (numChunksF n cs)).map
      (fun idx => sortChunk (chunkOf H p n cs idx)) =
      ((List.range (numChunksF n cs)).map (chunkOf H p n cs)).map sortChunk := by
    rw [List.map_map]
    rfl
  rw [hmap]
  refine (flatten_map_sortChunk_perm _).trans ?_
  rw [flatten_range_chunkOf]
  have hge : n ≤ numChunksF n cs * cs := by
    unfold numChunksF
    have h1 := Nat.div_add_mod' (n + cs - 1) cs
    have h2 : (n + cs - 1) % cs < cs := Nat.mod_lt _ hcs
    omega
  rw [Nat.min_eq_right hge]

theorem generatePlot_sorted (H : List Nat → Bytes32) (p : Bytes32) (n cs : Nat) :
    List.Sorted entryLe (generatePlotEntriesN H p n cs) := by
  unfold generatePlotEntriesN
  refine mergeSortedChunks_sorted _ ?_
  intro l hl
  unfold plotChunks at hl
  rcases List.mem_map.1 hl with ⟨idx, _, hidx⟩
  rw [← hidx]
  exact sortChunk_sorted _

theorem mem_generatePlot_hash (H : List Nat → Bytes32) (p : Bytes32) (n cs : Nat)
    (e : PlotEntry) (he : e ∈ generatePlotEntriesN H p n cs) :
    e.hash = H (rawValueBytes p e.index) := by
  unfold generatePlotEntriesN mergeSortedChunks at he
  have h₁ := mergeLoop_subset _ _ _ he
  rcases List.mem_flatten.1 h₁ with ⟨l, hl, hel⟩
  unfold plotChunks at hl
  rcases List.mem_map.1 hl with ⟨idx, _, hidx⟩
  rw [← hidx] at hel
  unfold sortChunk at hel
  haveI : IsTotal PlotEntry entryLe := ⟨entryLe_total⟩
  haveI : IsTrans PlotEntry entryLe := ⟨fun _ _ _ => entryLe_trans⟩
  have hel' : e ∈ chunkOf H p n cs idx :=
    (List.perm_insertionSort entryLe _).subset hel
  unfold chunkOf segEntries at hel'
  rcases List.mem_map.1 hel' with ⟨j, _, hj⟩
  rw [← hj]
  rfl

theorem flatMap_serialize_length : ∀ (l : List PlotEntry),
    (l.flatMap serializeEntry).length = 40 * l.length := by
  intro l
  induction l with
  | nil => rfl
  | cons e rest ih =>
    rw [List.flatMap_cons, List.length_append, serializeEntry_length, ih,
      List.length_cons]
    omega

/-- Claim C3: the generated plot (chunked generation followed by k-way
merge) has exactly N = 400,000 entries, sorted ascending by hash, each
satisfying `hash = SHA256(hex64(peerID) ∥ "_" ∥ dec(index))`, with the
index values covering `[0, N)`; the file is the packed sequence of
40-byte records (8-byte little-endian index + 32-byte hash), N·40
bytes in total. -/
theorem generatePlot_props (H : List Nat → Bytes32) (p : Bytes32) :
    (GeneratePlotEntries H p).length = 400000 ∧
    List.Sorted entryLe (GeneratePlotEntries H p) ∧
    (∀ e ∈ GeneratePlotEntries H p, e.hash = H (rawValueBytes p e.index)) ∧
    ((GeneratePlotEntries H p).map PlotEntry.index).Perm (List.range 400000) ∧
    (∀ e : PlotEntry, (serializeEntry e).length = 40) ∧
    (mergedPlotFileBytes H p).length = 400000 * 40 := by
  have hperm : (GeneratePlotEntries H p).Perm (segEntries H p 0 400000) :=
    generatePlot_perm H p posNumEntries plotChunkSize (by decide)
  have hseglen : (segEntries H p 0 400000).length = 400000 := by
    unfold segEntries
    rw [List.length_map, List.length_range]
  have hlen : (GeneratePlotEntries H p).length = 400000 :=
    hperm.length_eq.trans hseglen
  refine ⟨hlen, ?_, ?_, ?_, serializeEntry_length, ?_⟩
  · exact generatePlot_sorted H p posNumEntries plotChunkSize
  · intro e he
    exact mem_generatePlot_hash H p posNumEntries plotChunkSize e he
  · refine (hperm.map PlotEntry.index).trans ?_
    unfold segEntries
    rw [List.map_map]
    have hfun : (PlotEntry.index ∘ fun j => mkPlotEntry H p (0 + j)) = (fun j : Nat => j) := by
      funext j
      simp [mkPlotEntry]
    rw [hfun]
    rw [List.map_id']
  · unfold mergedPlotFileBytes
    rw [flatMap_serialize_length, hlen]

/-- Model of `pos.Challenge`: `T` prefix bits and the packed prefix bytes. -/
structure PosChallenge where
  prefixBits : Nat
  prefixVal : List Nat
deriving DecidableEq, Repr

/-- Model of `pos.Proof`. -/
structure PosProof where
  rawValue : List Nat
  index : Nat
  hash : Bytes32
deriving DecidableEq, Repr

/-- Model of `readEntryAt`: the positional 40-byte record read. -/
def readEntryAt (entries : List PlotEntry) (i : Nat) : PlotEntry :=
  entries.getD i default

/-- The bit of `l` at MSB-first position `i`
(`(l[i/8] >> (7 - i%8)) & 1`), zero past the end of `l`. -/
def bitAt (l : List Nat) (i : Nat) : Nat :=
  ((l.getD (i / 8) 0) >>> (7 - i % 8)) &&& 1

/-- The loop body of `pos.hashMatchesPrefix`: compare bits
`i, i+1, ..., i+count-1` MSB-first.  (The Go code indexes
`prefix[byteIndex]` directly and would panic on a short prefix slice;
`getD 0` zero-extends instead — all uses here have full prefixes.) -/
def hmpGo (hash : Bytes32) (pfx : List Nat) : Nat → Nat → Bool
  | 0, _ => true
  | count + 1, i =>
    if bitAt hash.val i ≠ bitAt pfx i then false
    else hmpGo hash pfx count (i + 1)

/-- Model of `pos.hashMatchesPrefix`: the top `prefixBits` bits of the hash
equal the prefix, MSB-first. -/
def hashMatchesPrefixB (hash : Bytes32) (prefixBits : Nat) (pfx : List Nat) : Bool :=
  hmpGo hash pfx prefixBits 0

/-- The loop body of `pos.comparePrefixToHash`: byte comparison over
`prefixBytes` bytes, masking the high `prefixBits % 8` bits of the
final byte when `prefixBits` is not a whole number of bytes; a missing
prefix byte reads as 0 (the explicit default in the Go code). -/
def cmpPfxGo (pfx : List Nat) (hash : Bytes32) (prefixBits prefixBytesN : Nat) :
    Nat → Nat → Int
  | 0, _ => 0
  | count + 1, i =>
    let prefixByte := pfx.getD i 0
    if i = prefixBytesN - 1 ∧ prefixBits % 8 ≠ 0 then
      let relevantBits := prefixBits % 8
      let mask := (255 <<< (8 - relevantBits)) % 256
      let pb := prefixByte &&& mask
      let hb := (hash.val.getD i 0) &&& mask
      if pb < hb then -1
      else if hb < pb then 1
      else cmpPfxGo pfx hash prefixBits prefixBytesN count (i + 1)
    else
      if prefixByte < hash.val.getD i 0 then -1
      else if hash.val.getD i 0 < prefixByte then 1
      else cmpPfxGo pfx hash prefixBits prefixBytesN count (i + 1)

/-- Model of `pos.comparePrefixToHash`. -/
def comparePrefixToHash (pfx : List Nat) (hash : Bytes32) (prefixBits : Nat) : Int :=
  cmpPfxGo pfx hash prefixBits ((prefixBits + 7) / 8) ((prefixBits + 7) / 8) 0

/-- The `lower_bound` binary search of `SearchMatchingHash`.  The fuel
(`totalEntries + 1` at the call site) exceeds the halving depth, so it
never runs out before `left = right`. -/
def lowerBoundGo (entries : List PlotEntry) (prefixBits : Nat) (pfx : List Nat) :
    Nat → Nat → Nat → Nat
  | 0, left, _ => left
  | fuel + 1, left, right =>
    if left < right then
      let mid := (left + right) / 2
      let entry := readEntryAt entries mid
      if comparePrefixToHash pfx entry.hash prefixBits = 1 then
        lowerBoundGo entries prefixBits pfx fuel (mid + 1) right
      else
        lowerBoundGo entries prefixBits pfx fuel left mid
    else left

/-- The forward scan of `SearchMatchingHash` from the lower bound:
stop early once the prefix lies strictly below the entry, return a
proof on the first prefix match.  Fuel `totalEntries + 1` covers every
remaining position, and running out coincides with the loop-end
`none`. -/
def scanGo (p : Bytes32) (entries : List PlotEntry) (prefixBits : Nat)
    (pfx : List Nat) (total : Nat) : Nat → Nat → Option PosProof
  | 0, _ => none
  | fuel + 1, i =>
    if i < total then
      let entry := readEntryAt entries i
      let cmp := comparePrefixToHash pfx entry.hash prefixBits
      if cmp = -1 then none
      else if cmp = 0 ∧ hashMatchesPrefixB entry.hash prefixBits pfx then
        some ⟨rawValueBytes p entry.index, entry.index, entry.hash⟩
      else scanGo p entries prefixBits pfx total fuel (i + 1)
    else none

/-- Model of `Plot.SearchMatchingHash` (part_005): binary search for the lower
bound of the prefix, then scan forward while the prefix still matches.
`totalEntries` is the plot size (the entry count of the file). -/
def SearchMatchingHash (p : Bytes32) (entries : List PlotEntry) (prefixBits : Nat)
    (pfx : List Nat) : Option PosProof :=
  let total := entries.length
  let lb := lowerBoundGo entries prefixBits pfx (total + 1) 0 total
  scanGo p entries prefixBits pfx total (total + 1) lb

/-- Go `strings.Split` on a one-byte separator: `splitOnByte` never
returns `[]`, so head/tail recombination is total. -/
def splitOnByte (sep : Nat) : List Nat → List (List Nat)
  | [] => [[]]
  | b :: bs =>
    let rest := splitOnByte sep bs
    if b = sep then [] :: rest
    else (b :: rest.headD []) :: rest.tail

/-- Model of `pos.VerifyProof` (part_005): reject unless the raw value splits
into exactly two parts on `'_'`, the first part is the expected peer
id hex, `SHA256(rawValue)` equals the proof hash, and the hash starts
with the challenge prefix. -/
def VerifyProof (H : List Nat → Bytes32) (peerID : Bytes32) (ch : PosChallenge)
    (pf : PosProof) : Bool :=
  let parts := splitOnByte underscoreByte pf.rawValue
  if parts.length ≠ 2 then false
  else if parts.getD 0 [] ≠ hexBytes peerID then false
  else if H pf.rawValue ≠ pf.hash then false
  else hashMatchesPrefixB pf.hash ch.prefixBits ch.prefixVal

theorem splitOnByte_length_pos (sep : Nat) (l : List Nat) :
    0 < (splitOnByte sep l).length := by
  induction l with
  | nil => simp [splitOnByte]
  | cons b bs ih =>
    rw [splitOnByte]
    split <;> simp

theorem splitOnByte_no_sep (sep : Nat) : ∀ (l : List Nat), sep ∉ l →
    splitOnByte sep l = [l] := by
  intro l
  induction l with
  | nil => intro _; rfl
  | cons b bs ih =>
    intro h
    have hb : b ≠ sep := fun hb => h (hb ▸ List.mem_cons_self b bs)
    have hbs : sep ∉ bs := fun hm => h (List.mem_cons_of_mem b hm)
    rw [splitOnByte]
    simp only [hb, if_false]
    rw [ih hbs]
    rfl

theorem splitOnByte_append (sep : Nat) : ∀ (u v : List Nat), sep ∉ u →
    splitOnByte sep (u ++ sep :: v) = u :: splitOnByte sep v := by
  intro u
  induction u with
  | nil =>
    intro v _
    rw [List.nil_append, splitOnByte]
    simp
  | cons b bs ih =>
    intro v h
    have hb : b ≠ sep := fun hb => h (hb ▸ List.mem_cons_self b bs)
    have hbs : sep ∉ bs := fun hm => h (List.mem_cons_of_mem b hm)
    rw [List.cons_append, splitOnByte]
    simp only [hb, if_false]
    rw [ih v hbs]
    rfl

theorem splitOnByte_rawValue (p : Bytes32) (i : Nat) :
    splitOnByte underscoreByte (rawValueBytes p i) = [hexBytes p, decimalDigits i] := by
  unfold rawValueBytes
  rw [List.append_assoc, List.singleton_append,
    splitOnByte_append underscoreByte (hexBytes p) (decimalDigits i)
      (underscore_not_mem_hexBytes p),
    splitOnByte_no_sep underscoreByte (decimalDigits i)
      (underscore_not_mem_decimalDigits i)]

theorem scanGo_some (p : Bytes32) (entries : List PlotEntry) (prefixBits : Nat)
    (pfx : List Nat) (total : Nat) :
    ∀ fuel i pf, scanGo p entries prefixBits pfx total fuel i = some pf →
      ∃ j, j < total ∧
        pf = ⟨rawValueBytes p (readEntryAt entries j).index,
              (readEntryAt entries j).index, (readEntryAt entries j).hash⟩ ∧
        hashMatchesPrefixB (readEntryAt entries j).hash prefixBits pfx = true := by
  intro fuel
  induction fuel with
  | zero => intro i pf h; cases h
  | succ fuel ih =>
    intro i pf h
    rw [scanGo] at h
    dsimp only at h
    split at h
    · next hi =>
      split at h
      · cases h
      · split at h
        · next hcond =>
          refine ⟨i, hi, ?_, hcond.2⟩
          simp only [Option.some.injEq] at h
          exact h.symm
        · exact ih (i + 1) pf h
    · cases h

/-- Claim C2: any proof returned by `SearchMatchingHash` on a plot
produced by `GeneratePlot` for peer `p` verifies under `VerifyProof`
for the same peer and challenge (stated for every plot size and chunk
size, in particular the reference N = 400,000 / 50,000). -/
theorem search_generated_verify (H : List Nat → Bytes32) (p : Bytes32) (n cs : Nat)
    (ch : PosChallenge) (pf : PosProof)
    (hs : SearchMatchingHash p (generatePlotEntriesN H p n cs) ch.prefixBits
      ch.prefixVal = some pf) :
    VerifyProof H p ch pf = true := by
  unfold SearchMatchingHash at hs
  rcases scanGo_some p (generatePlotEntriesN H p n cs) ch.prefixBits ch.prefixVal
    (generatePlotEntriesN H p n cs).length _ _ pf hs with ⟨j, hj, hpf, hmp⟩
  have hmem : readEntryAt (generatePlotEntriesN H p n cs) j ∈
      generatePlotEntriesN H p n cs := by
    unfold readEntryAt
    rw [List.getD_eq_getElem _ _ hj]
    exact List.getElem_mem _
  have hhash := mem_generatePlot_hash H p n cs _ hmem
  subst hpf
  unfold VerifyProof
  dsimp only
  rw [splitOnByte_rawValue]
  rw [if_neg (by simp)]
  rw [if_neg (by simp)]
  rw [if_neg ?_]
  · exact hmp
  · rw [not_ne_iff]
    exact hhash.symm

/-- The constant hash oracle used for witnesses and counterexamples. -/
def constHashZero : List Nat → Bytes32 := fun _ => zeroId

/-- The proof `SearchMatchingHash` finds on the 1-entry toy plot. -/
def pfW : PosProof := ⟨rawValueBytes zeroId 0, 0, zeroId⟩

/-- Witness for C2: a concrete search hit that verifies. -/
theorem search_generated_verify_witness :
    VerifyProof constHashZero zeroId ⟨8, [0]⟩ pfW = true :=
  search_generated_verify constHashZero zeroId 1 1 ⟨8, [0]⟩ pfW (by decide)

theorem bitAt_lt_two (l : List Nat) (i : Nat) : bitAt l i < 2 := by
  unfold bitAt
  rw [Nat.and_one_is_mod]
  exact Nat.mod_lt _ (by omega)

/-- The numeric value of the top `t` bits (MSB-first), the spec-side
reading of "the top T bits of the hash equal the challenge prefix". -/
def topBitsVal : Nat → List Nat → Nat
  | 0, _ => 0
  | t + 1, l => 2 * topBitsVal t l + bitAt l t

theorem topBitsVal_eq_iff : ∀ (t : Nat) (l₁ l₂ : List Nat),
    topBitsVal t l₁ = topBitsVal t l₂ ↔ ∀ i < t, bitAt l₁ i = bitAt l₂ i := by
  intro t
  induction t with
  | zero =>
    intro l₁ l₂
    simp [topBitsVal]
  | succ t ih =>
    intro l₁ l₂
    constructor
    · intro h i hi
      have hb := bitAt_lt_two l₁ t
      have hd := bitAt_lt_two l₂ t
      unfold topBitsVal at h
      have hsplit : topBitsVal t l₁ = topBitsVal t l₂ ∧ bitAt l₁ t = bitAt l₂ t := by
        omega
      rcases Nat.lt_succ_iff_lt_or_eq.1 hi with hi | hi
      · exact (ih l₁ l₂).1 hsplit.1 i hi
      · rw [hi]; exact hsplit.2
    · intro h
      unfold topBitsVal
      rw [(ih l₁ l₂).2 (fun i hi => h i (Nat.lt_succ_of_lt hi)),
        h t (Nat.lt_succ_self t)]

theorem hmpGo_iff (hash : Bytes32) (pfx : List Nat) :
    ∀ (count i : Nat), hmpGo hash pfx count i = true ↔
      ∀ j < count, bitAt hash.val (i + j) = bitAt pfx (i + j) := by
  intro count
  induction count with
  | zero =>
    intro i
    simp [hmpGo]
  | succ count ih =>
    intro i
    rw [hmpGo]
    by_cases heq : bitAt hash.val i = bitAt pfx i
    · rw [if_neg (by simpa using heq)]
      rw [ih (i + 1)]
      constructor
      · intro h j hj
        cases j with
        | zero => simpa using heq
        | succ k =>
          have := h k (by omega)
          have harith : i + 1 + k = i + (k + 1) := by omega
          rw [harith] at this
          exact this
      · intro h j hj
        have := h (j + 1) (by omega)
        have harith : i + (j + 1) = i + 1 + j := by omega
        rw [harith] at this
        exact this
    · rw [if_pos (by simpa using heq)]
      constructor
      · intro h; cases h
      · intro h
        exact absurd (by simpa using h 0 (by omega)) heq

theorem hashMatches_iff_topBits (hash : Bytes32) (t : Nat) (pfx : List Nat) :
    hashMatchesPrefixB hash t pfx = true ↔
      topBitsVal t hash.val = topBitsVal t pfx := by
  rw [hashMatchesPrefixB, hmpGo_iff, topBitsVal_eq_iff]
  constructor
  · intro h i hi
    simpa using h i hi
  · intro h i hi
    simpa using h i hi

theorem splitOnByte_length (sep : Nat) : ∀ (l : List Nat),
    (splitOnByte sep l).length = l.count sep + 1 := by
  intro l
  induction l with
  | nil => rfl
  | cons b bs ih =>
    rw [splitOnByte]
    by_cases hb : b = sep
    · rw [if_pos hb, List.length_cons, ih]
      subst hb
      simp [List.count_cons]
    · rw [if_neg hb, List.length_cons]
      have hpos := splitOnByte_length_pos sep bs
      rw [List.length_tail, ih]
      simp [List.count_cons, hb]

theorem splitOnByte_headD (sep : Nat) : ∀ (l : List Nat),
    (splitOnByte sep l).headD [] = l.takeWhile (fun b => decide (b ≠ sep)) := by
  intro l
  induction l with
  | nil => rfl
  | cons b bs ih =>
    rw [splitOnByte]
    by_cases hb : b = sep
    · rw [if_pos hb]
      subst hb
      simp [List.takeWhile]
    · rw [if_neg hb]
      rw [List.takeWhile_cons, if_pos (decide_eq_true hb)]
      simp only [List.headD_cons]
      rw [ih]

theorem getD0_eq_headD (l : List (List Nat)) : l.getD 0 [] = l.headD [] := by
  cases l <;> rfl

/-- Claim C4 (amended): `VerifyProof` accepts exactly when the raw
value contains exactly one `'_'`, the part before it is the peer id's
64-character hex encoding, `SHA256(raw_value)` equals the proof hash,
and the top T bits of the hash equal the challenge prefix (MSB-first,
final byte compared only on its relevant high bits).  The part after
the underscore is NOT required to be decimal — that is where the
original claim fails. -/
theorem verifyProof_accepts_iff (H : List Nat → Bytes32) (peerID : Bytes32)
    (ch : PosChallenge) (pf : PosProof) :
    VerifyProof H peerID ch pf = true ↔
      (pf.rawValue.count underscoreByte = 1 ∧
       pf.rawValue.takeWhile (fun b => decide (b ≠ underscoreByte)) = hexBytes peerID ∧
       H pf.rawValue = pf.hash ∧
       topBitsVal ch.prefixBits pf.hash.val = topBitsVal ch.prefixBits ch.prefixVal) := by
  have hlen2 : (splitOnByte underscoreByte pf.rawValue).length = 2 ↔
      pf.rawValue.count underscoreByte = 1 := by
    rw [splitOnByte_length]
    omega
  have hhead : (splitOnByte underscoreByte pf.rawValue).getD 0 [] =
      pf.rawValue.takeWhile (fun b => decide (b ≠ underscoreByte)) := by
    rw [getD0_eq_headD, splitOnByte_headD]
  unfold VerifyProof
  dsimp only
  by_cases h1 : (splitOnByte underscoreByte pf.rawValue).length ≠ 2
  · rw [if_pos h1]
    constructor
    · intro h; cases h
    · intro h
      exact absurd (hlen2.2 h.1) h1
  · rw [if_neg h1]
    by_cases h2 : (splitOnByte underscoreByte pf.rawValue).getD 0 [] ≠ hexBytes peerID
    · rw [if_pos h2]
      constructor
      · intro h; cases h
      · intro h
        rw [hhead] at h2
        exact absurd h.2.1 h2
    · rw [if_neg h2]
      by_cases h3 : H pf.rawValue ≠ pf.hash
      · rw [if_pos h3]
        constructor
        · intro h; cases h
        · intro h
          exact absurd h.2.2.1 h3
      · rw [if_neg h3]
        rw [hashMatches_iff_topBits]
        constructor
        · intro h
          refine ⟨hlen2.1 (not_not.1 h1), ?_, not_not.1 h3, h⟩
          rw [← hhead]
          exact not_not.1 h2
        · intro h
          exact h.2.2.2

/-- One ASCII decimal digit, as the claim's `<decimal>` requires. -/
def isDecimalByte (b : Nat) : Bool := decide (48 ≤ b) && decide (b ≤ 57)

/-- The claim's parse requirement, stated from the spec's words:
`raw_value` is `"<hex64>_<decimal>"` — exactly two parts around `'_'`,
the first the peer id hex, the second a nonempty digit string. -/
def specParsesHexUnderscoreDecimal (peerID : Bytes32) (raw : List Nat) : Bool :=
  match splitOnByte underscoreByte raw with
  | [a, b] => decide (a = hexBytes peerID) && !b.isEmpty && b.all isDecimalByte
  | _ => false

/-- The acceptance condition exactly as claim C4 states it, from the
spec's words: well-formed `<hex64>_<decimal>` raw value, matching peer
hex, matching SHA-256, matching top-T-bit prefix. -/
def specVerifyAccept (H : List Nat → Bytes32) (peerID : Bytes32)
    (ch : PosChallenge) (pf : PosProof) : Bool :=
  specParsesHexUnderscoreDecimal peerID pf.rawValue &&
  decide (H pf.rawValue = pf.hash) &&
  decide (topBitsVal ch.prefixBits pf.hash.val = topBitsVal ch.prefixBits ch.prefixVal)

/-- A raw value whose part after `'_'` is `"x"`, not a decimal. -/
def cexRawNonDecimal : List Nat := hexBytes zeroId ++ [underscoreByte, 120]

/-- The corresponding forged proof. -/
def cexPosProof : PosProof := ⟨cexRawNonDecimal, 0, zeroId⟩

/-- A challenge whose 8-bit prefix matches the all-zero hash. -/
def cexPosChallenge : PosChallenge := ⟨8, [0]⟩

/-- Claim C4 counterexample: `VerifyProof` accepts a proof whose raw
value does NOT parse as `"<hex64>_<decimal>"` (the suffix is `"x"`):
the code never checks that the part after the underscore is decimal,
so "accepts exactly when ... raw_value parses as <hex64>_<decimal>"
fails on the code. -/
theorem verifyProof_format_cex :
    VerifyProof constHashZero zeroId cexPosChallenge cexPosProof = true ∧
    specVerifyAccept constHashZero zeroId cexPosChallenge cexPosProof = false := by
  constructor <;> decide

/-- Witness for C3: the plot-record layout fact of `generatePlot_props`
instantiated at a concrete hash oracle, peer and entry. -/
theorem generatePlot_props_witness :
    (serializeEntry ⟨0, zeroId⟩).length = 40 :=
  (generatePlot_props constHashZero zeroId).2.2.2.2.1 ⟨0, zeroId⟩

/-- A well-formed proof for peer `oneId` under the constant oracle. -/
def pfW2 : PosProof := ⟨rawValueBytes oneId 5, 5, zeroId⟩

/-- Witness for C4: the amended acceptance characterization applied at
a concrete well-formed proof. -/
theorem verifyProof_accepts_iff_witness :
    VerifyProof constHashZero oneId ⟨8, [0]⟩ pfW2 = true :=
  (verifyProof_accepts_iff constHashZero oneId ⟨8, [0]⟩ pfW2).2
    ⟨by decide, by decide, by decide, by decide⟩

end DFS
